import Mathlib

/-!
# Verification of the quinn-udp cmsg core and the tokio runtime receive loop

A shallow embedding of `src/quinn-udp/src/cmsg/mod.rs`, `src/quinn-udp/src/cmsg/unix.rs`
and the `poll_recv` loop of `src/quinn/src/runtime/tokio.rs`.

The control buffer is modelled as a total function `Nat → Nat` from byte offsets to
byte values.  A `cmsghdr` on the modelled 64-bit POSIX platform is 16 bytes:
an 8-byte little-endian `cmsg_len` (`size_t`), a 4-byte little-endian `cmsg_level`
(`int`, modelled by its 32-bit pattern) and a 4-byte little-endian `cmsg_type`.
Entry alignment is 8 bytes (the conservative bound in `unix.rs`, `#[repr(align(8))]`).
Pointers into the buffer are modelled as `Option Nat` byte offsets (`none` = null).
The `#[cfg(apple)]` conditional compilation flag is modelled by a `Bool` parameter.
-/

namespace Cmsg

/-- A control buffer: byte value at each offset. -/
abbrev Buf := Nat → Nat

/-- Write the list `bs` into `buf` starting at offset `off`. -/
def writeBytes (buf : Buf) (off : Nat) (bs : List Nat) : Buf :=
  fun i => if off ≤ i ∧ i < off + bs.length then bs.getD (i - off) 0 else buf i

/-- Read `n` bytes from `buf` starting at offset `off`. -/
def readBytes (buf : Buf) (off n : Nat) : List Nat :=
  (List.range n).map (fun i => buf (off + i))

/-- Little-endian byte serialisation of `v` into `k` bytes. -/
def leWrite : Nat → Nat → List Nat
  | 0, _ => []
  | k + 1, v => (v % 256) :: leWrite k (v / 256)

/-- Little-endian deserialisation of a byte list. -/
def leRead : List Nat → Nat
  | [] => 0
  | b :: bs => b + 256 * leRead bs

/-! ## Platform constants and `CMsgHdr` primitives (`unix.rs`, `impl CMsgHdr for libc::cmsghdr`) -/

/-- `size_of::<libc::cmsghdr>()` on the modelled 64-bit POSIX platform: an 8-byte
`cmsg_len` followed by a 4-byte `cmsg_level` and a 4-byte `cmsg_type`. -/
def cmsghdrSize : Nat := 16

/-- `CMSG_ALIGN`: round `n` up to the 8-byte entry alignment. -/
def cmsgAlign (n : Nat) : Nat := 8 * ((n + 7) / 8)

/-- Modelled from the spec: `libc::CMSG_LEN(length)` (required_length) — the byte length
declared in an entry's length field for `length` payload bytes: aligned header size plus
payload, unpadded. -/
def cmsg_len (length : Nat) : Nat := cmsgAlign cmsghdrSize + length

/-- Modelled from the spec: `libc::CMSG_SPACE(length)` (required_space) — the total
footprint an entry occupies including alignment padding to reach the next entry. -/
def cmsg_space (length : Nat) : Nat := cmsgAlign cmsghdrSize + cmsgAlign length

/-- Read an entry's `cmsg_len` field at offset `off` (8 bytes, little endian). -/
def readLen (buf : Buf) (off : Nat) : Nat := leRead (readBytes buf off 8)

/-- Read an entry's `cmsg_level` field (4 bytes at offset `off + 8`). -/
def readLevel (buf : Buf) (off : Nat) : Nat := leRead (readBytes buf (off + 8) 4)

/-- Read an entry's `cmsg_type` field (4 bytes at offset `off + 12`). -/
def readType (buf : Buf) (off : Nat) : Nat := leRead (readBytes buf (off + 12) 4)

/-- `CMsgHdr::set(level, ty, len)` (`unix.rs` lines 96-100): write the three header
fields of the entry at offset `off`.  `c_int` fields store their 32-bit pattern. -/
def cmsgSet (buf : Buf) (off : Nat) (level ty len : Nat) : Buf :=
  writeBytes buf off (leWrite 8 len ++ leWrite 4 level ++ leWrite 4 ty)

/-- `CMSG_DATA`: the payload of the entry at `off` starts right after the aligned header. -/
def cmsg_data (off : Nat) : Nat := off + cmsgAlign cmsghdrSize

/-! ## The `MsgHdr` model (`libc::msghdr` as used through the `MsgHdr` trait) -/

/-- The parts of a native `msghdr` the cmsg core reads and writes: the declared
control-buffer length `msg_controllen`, whether the `msg_control` pointer is null,
and the control buffer contents. -/
structure MsgHdrM where
  msg_controllen : Nat
  msg_control_null : Bool
  buf : Buf

/-- `MsgHdr::control_len` (`unix.rs` lines 42-44). -/
def control_len (h : MsgHdrM) : Nat := h.msg_controllen

/-- `MsgHdr::set_control_len` (`unix.rs` lines 33-40): sets `msg_controllen`, and nulls
the `msg_control` pointer when the new length is zero (the netbsd quirk). -/
def set_control_len (h : MsgHdrM) (len : Nat) : MsgHdrM :=
  { h with
    msg_controllen := len
    msg_control_null := if len = 0 then true else h.msg_control_null }

/-- Modelled from the spec: `libc::CMSG_FIRSTHDR` (the platform first-entry lookup) —
a pointer to the first entry when the control buffer can hold at least one entry
header, null otherwise. -/
def cmsg_first_hdr (h : MsgHdrM) : Option Nat :=
  if h.msg_control_null then none
  else if cmsghdrSize ≤ h.msg_controllen then some 0 else none

/-- Modelled from the spec: `libc::CMSG_NXTHDR` (the platform next-entry lookup) —
advance past the current entry by the aligned declared length; null once no further
entry header fits within the declared control-buffer length. -/
def cmsg_nxt_hdr_raw (h : MsgHdrM) (off : Nat) : Option Nat :=
  let next := off + cmsgAlign (readLen h.buf off)
  if next + cmsghdrSize ≤ h.msg_controllen then some next else none

/-- `MsgHdr::cmsg_nxt_hdr` (`unix.rs` lines 17-31): the platform lookup, plus — when the
`apple` cfg flag is set — the defensive truncation check: a non-null result whose
declared length is smaller than `size_of::<libc::cmsghdr>()` becomes null. -/
def cmsg_nxt_hdr (apple : Bool) (h : MsgHdrM) (off : Nat) : Option Nat :=
  let next := cmsg_nxt_hdr_raw h off
  if apple then
    match next with
    | some n => if readLen h.buf n < cmsghdrSize then none else some n
    | none => none
  else next

/-! ## The `Encoder` (`mod.rs` lines 22-86) -/

/-- `Encoder<'_, M>`: the borrowed header, the cursor to the next writable entry slot
(`cmsg`, a possibly-null entry pointer), and the accumulated length `len`. -/
structure EncM where
  hdr : MsgHdrM
  cmsg : Option Nat
  len : Nat

/-- One pushed control message: the `level` and `ty` tags (32-bit `c_int` patterns),
the value type's alignment `al` (`align_of::<T>()`) and the value's raw bytes
(`size_of::<T>()` of them). -/
structure Cm where
  level : Nat
  ty : Nat
  al : Nat
  value : List Nat

instance : Inhabited Cm := ⟨⟨0, 0, 1, []⟩⟩

/-- `Encoder::new` (`mod.rs` lines 33-39): query the first entry slot, zero accumulated
length. -/
def EncM.new (h : MsgHdrM) : EncM :=
  { hdr := h, cmsg := cmsg_first_hdr h, len := 0 }

/-- `Encoder::push` (`mod.rs` lines 46-72).  A panicking `assert!` is modelled as
`Except.error`; the `Ok` result carries the updated encoder and whether the defensive
`tracing::error!` diagnostic fired (the silently-dropped-append branch). -/
def EncM.push (apple : Bool) (e : EncM) (t : Cm) : Except String (EncM × Bool) :=
  if ¬ t.al ≤ 8 then .error "assertion failed: align_of T <= align_of ControlMessage"
  else
    let space := cmsg_space t.value.length
    if ¬ e.len + space ≤ control_len e.hdr then .error "control message buffer too small"
    else
      match e.cmsg with
      | none => .ok (e, true)
      | some c =>
        let buf1 := cmsgSet e.hdr.buf c t.level t.ty (cmsg_len t.value.length)
        let buf2 := writeBytes buf1 (cmsg_data c) t.value
        let hdr2 : MsgHdrM := { e.hdr with buf := buf2 }
        .ok ({ hdr := hdr2, cmsg := cmsg_nxt_hdr apple hdr2 c, len := e.len + space }, false)

/-- `impl Drop for Encoder` (`mod.rs` lines 82-86): commit the accumulated length into
the header. -/
def EncM.dropEnc (e : EncM) : MsgHdrM := set_control_len e.hdr e.len

/-- `Encoder::finish` (`mod.rs` lines 75-77): delegates to the `Drop` impl. -/
def EncM.finish (e : EncM) : MsgHdrM := e.dropEnc

/-- Push a whole list of control messages in order, propagating panics and discarding
the per-push diagnostic flags (as a caller of `Encoder::push` does). -/
def pushAll (apple : Bool) (e : EncM) : List Cm → Except String EncM
  | [] => .ok e
  | t :: ts =>
    match EncM.push apple e t with
    | .error m => .error m
    | .ok (e2, _) => pushAll apple e2 ts

/-! ## Typed decode (`mod.rs` lines 91-95) -/

/-- `decode::<T, C>` (`mod.rs` lines 91-95) for a type of alignment `al` and size `sz`,
over the entry at offset `off`.  `debug` selects a non-production build, in which the
`debug_assert_eq!` length check is active; the `assert!` on alignment is active in all
builds.  Returns the payload bytes read from the entry. -/
def decodeM (debug : Bool) (buf : Buf) (off : Nat) (al sz : Nat) : Except String (List Nat) :=
  if ¬ al ≤ 8 then .error "assertion failed: align_of T <= align_of C"
  else if debug ∧ ¬ readLen buf off = cmsg_len sz then
    .error "debug assertion failed: cmsg.len() == cmsg_len(size_of T)"
  else .ok (readBytes buf (cmsg_data off) sz)

/-! ## The decoding `Iter` (`mod.rs` lines 97-149) -/

/-- `Iter<'_, M>`: the borrowed header, the cursor, and the per-iterator yield count. -/
structure IterM where
  hdr : MsgHdrM
  cmsg : Option Nat
  count : Nat

/-- `Iter::new` (`mod.rs` lines 105-118).  `iterCount` models the value the global
`ITER_COUNT` atomic held before this construction; the second component is the number
of diagnostic lines emitted (one `eprintln!` on every thousandth construction). -/
def IterM.new (iterCount : Nat) (h : MsgHdrM) : IterM × Nat :=
  (⟨h, cmsg_first_hdr h, 0⟩, if iterCount % 1000 = 0 then 1 else 0)

/-- `Iter::next` (`mod.rs` lines 124-148): yields the current entry (if any) and
advances via `cmsg_nxt_hdr`.  The third component is the number of diagnostic lines
emitted by this call: the unconditional per-call `eprintln!` plus either the
returns-`None` line or the returns-message line. -/
def IterM.next (apple : Bool) (it : IterM) : Option Nat × IterM × Nat :=
  match it.cmsg with
  | none => (none, it, 2)
  | some c =>
    (some c, ⟨it.hdr, cmsg_nxt_hdr apple it.hdr c, it.count + 1⟩, 2)

/-- Collect the entries yielded by repeatedly calling `Iter::next`, up to `fuel` calls. -/
def iterItems (apple : Bool) : Nat → IterM → List Nat
  | 0, _ => []
  | fuel + 1, it =>
    match IterM.next apple it with
    | (none, _, _) => []
    | (some c, it2, _) => c :: iterItems apple fuel it2

/-! ## Specification predicates about buffer layouts -/

/-- The entry for `t` is laid out at offset `o`: its declared length field holds
`cmsg_len` of the payload size, its level/type fields hold `t`'s tags, and its payload
region holds exactly `t.value`. -/
def entryIs (buf : Buf) (o : Nat) (t : Cm) : Prop :=
  readLen buf o = cmsg_len t.value.length ∧
  readLevel buf o = t.level ∧
  readType buf o = t.ty ∧
  readBytes buf (cmsg_data o) t.value.length = t.value

/-- The entries for `ts` are laid out back to back starting at offset `o`, each
consuming its `cmsg_space`. -/
def entriesAt (buf : Buf) : Nat → List Cm → Prop
  | _, [] => True
  | o, t :: ts => entryIs buf o t ∧ entriesAt buf (o + cmsg_space t.value.length) ts

/-- Total `cmsg_space` footprint of a sequence of control messages. -/
def sumSpace : List Cm → Nat
  | [] => 0
  | t :: ts => cmsg_space t.value.length + sumSpace ts

/-- The successive entry offsets for `ts` when laid out back to back from `o`. -/
def offsetsFrom : Nat → List Cm → List Nat
  | _, [] => []
  | o, t :: ts => o :: offsetsFrom (o + cmsg_space t.value.length) ts

end Cmsg

/-! ## The tokio runtime `UdpSocket::poll_recv` loop (`src/quinn/src/runtime/tokio.rs`) -/

namespace TokioRt

/-- The `std::io::ErrorKind` values the loop distinguishes, plus representatives of the
rest. -/
inductive ErrorKindM where
  | notConnected
  | wouldBlock
  | connectionReset
  | otherKind
deriving DecidableEq, Repr

/-- An `std::io::Error`, abstracted to its kind. -/
structure IOErrM where
  kind : ErrorKindM
deriving DecidableEq, Repr

/-- One outcome of `self.io.poll_recv_ready(cx)`. -/
inductive ReadyR where
  | pending
  | readyOk
  | readyErr (e : IOErrM)
deriving DecidableEq, Repr

/-- The value `poll_recv` returns: `Poll::Pending`, `Poll::Ready(Ok(n))` or
`Poll::Ready(Err(e))`. -/
inductive PollR where
  | pending
  | readyOk (n : Nat)
  | readyErr (e : IOErrM)
deriving DecidableEq, Repr

/-- `UdpSocket::poll_recv` (`tokio.rs` lines 71-99), driven by a trace of oracle
outcomes: each loop iteration consumes one `(poll_recv_ready result, try_io recv result)`
pair.  `ready!` propagates `Pending`; `?` propagates a readiness error; an `Ok` receive
returns `Ready(Ok(n))`; a receive error returns `Ready(Err(e))` only for
`ErrorKind::NotConnected` and otherwise loops.  `none` means the trace ended with the
loop still running. -/
def poll_recv : List (ReadyR × Except IOErrM Nat) → Option PollR
  | [] => none
  | (r, rcv) :: rest =>
    match r with
    | .pending => some .pending
    | .readyErr e => some (.readyErr e)
    | .readyOk =>
      match rcv with
      | .ok n => some (.readyOk n)
      | .error e =>
        if e.kind = .notConnected then some (.readyErr e) else poll_recv rest

end TokioRt

/-! ## Byte-level lemmas -/

namespace Cmsg

theorem leWrite_length (k v : Nat) : (leWrite k v).length = k := by
  induction k generalizing v with
  | zero => rfl
  | succ n ih => simp [leWrite, ih]

theorem leRead_leWrite (k v : Nat) (h : v < 256 ^ k) : leRead (leWrite k v) = v := by
  induction k generalizing v with
  | zero => simp at h; simp [h, leWrite, leRead]
  | succ n ih =>
    have hdiv : v / 256 < 256 ^ n := by
      rw [Nat.div_lt_iff_lt_mul (by norm_num : 0 < 256)]
      rw [Nat.pow_succ] at h
      omega
    simp only [leWrite, leRead, ih (v / 256) hdiv]
    omega

theorem readBytes_length (buf : Buf) (off n : Nat) : (readBytes buf off n).length = n := by
  simp [readBytes]

theorem readBytes_congr {b1 b2 : Buf} (off n : Nat)
    (h : ∀ i, i < n → b1 (off + i) = b2 (off + i)) :
    readBytes b1 off n = readBytes b2 off n := by
  simp only [readBytes]
  apply List.map_congr_left
  intro i hi
  exact h i (List.mem_range.mp hi)

theorem writeBytes_lt (buf : Buf) (off : Nat) (bs : List Nat) (i : Nat) (h : i < off) :
    writeBytes buf off bs i = buf i := by
  simp only [writeBytes]
  rw [if_neg]
  omega

theorem writeBytes_ge (buf : Buf) (off : Nat) (bs : List Nat) (i : Nat)
    (h : off + bs.length ≤ i) :
    writeBytes buf off bs i = buf i := by
  simp only [writeBytes]
  rw [if_neg]
  omega

theorem writeBytes_get (buf : Buf) (off : Nat) (bs : List Nat) (j : Nat) (h : j < bs.length) :
    writeBytes buf off bs (off + j) = bs.getD j 0 := by
  simp only [writeBytes]
  rw [if_pos (by omega)]
  congr 1
  omega

theorem readBytes_writeBytes (buf : Buf) (off : Nat) (bs : List Nat) :
    readBytes (writeBytes buf off bs) off bs.length = bs := by
  apply List.ext_getElem
  · simp [readBytes_length]
  · intro i h1 h2
    simp only [readBytes, List.getElem_map, List.getElem_range]
    rw [writeBytes_get buf off bs i (by simpa [readBytes_length] using h2)]
    exact List.getD_eq_getElem bs 0 _

theorem writeBytes_append (buf : Buf) (off : Nat) (as bs : List Nat) :
    writeBytes buf off (as ++ bs) = writeBytes (writeBytes buf off as) (off + as.length) bs := by
  funext i
  simp only [writeBytes, List.length_append]
  by_cases h1 : off ≤ i ∧ i < off + (as.length + bs.length)
  · by_cases h2 : off + as.length ≤ i ∧ i < off + as.length + bs.length
    · rw [if_pos h1, if_pos h2]
      rw [List.getD_append_right as bs 0 _ (by omega)]
      congr 1
      omega
    · have h3 : i < off + as.length := by omega
      rw [if_pos h1, if_neg h2, if_pos (by omega)]
      rw [List.getD_append as bs 0 _ (by omega)]
  · rw [if_neg h1, if_neg (by omega), if_neg (by omega)]

/-! ## Alignment and sizing lemmas -/

theorem cmsgAlign_le (n : Nat) : n ≤ cmsgAlign n := by
  unfold cmsgAlign
  omega

theorem cmsg_data_eq (o : Nat) : cmsg_data o = o + 16 := rfl

theorem cmsg_len_eq (sz : Nat) : cmsg_len sz = 16 + sz := rfl

theorem cmsg_space_eq (sz : Nat) : cmsg_space sz = 16 + cmsgAlign sz := rfl

theorem cmsg_space_ge (sz : Nat) : 16 ≤ cmsg_space sz := by
  rw [cmsg_space_eq]
  omega

theorem cmsg_len_le_space (sz : Nat) : cmsg_len sz ≤ cmsg_space sz := by
  rw [cmsg_len_eq, cmsg_space_eq]
  have := cmsgAlign_le sz
  omega

theorem cmsgAlign_cmsg_len (sz : Nat) : cmsgAlign (cmsg_len sz) = cmsg_space sz := by
  rw [cmsg_len_eq, cmsg_space_eq]
  unfold cmsgAlign
  omega

theorem sumSpace_pos {ts : List Cm} (h : ts ≠ []) : 16 ≤ sumSpace ts := by
  cases ts with
  | nil => exact absurd rfl h
  | cons t ts =>
    have := cmsg_space_ge t.value.length
    simp only [sumSpace]
    omega

theorem offsetsFrom_length (o : Nat) (ts : List Cm) : (offsetsFrom o ts).length = ts.length := by
  induction ts generalizing o with
  | nil => rfl
  | cons t ts ih => simp [offsetsFrom, ih]

end Cmsg

/-! ## Entry-level read-after-write lemmas -/

namespace Cmsg

theorem readBytes_writeBytes_below (buf : Buf) (off : Nat) (bs : List Nat) (o n : Nat)
    (h : o + n ≤ off) : readBytes (writeBytes buf off bs) o n = readBytes buf o n := by
  apply readBytes_congr
  intro i hi
  exact writeBytes_lt _ _ _ _ (by omega)

theorem readBytes_writeBytes_above (buf : Buf) (off : Nat) (bs : List Nat) (o n : Nat)
    (h : off + bs.length ≤ o) : readBytes (writeBytes buf off bs) o n = readBytes buf o n := by
  apply readBytes_congr
  intro i hi
  exact writeBytes_ge _ _ _ _ (by omega)

theorem cmsgSet_split (buf : Buf) (off : Nat) (level ty len : Nat) :
    cmsgSet buf off level ty len =
      writeBytes (writeBytes (writeBytes buf off (leWrite 8 len))
        (off + 8) (leWrite 4 level)) (off + 12) (leWrite 4 ty) := by
  unfold cmsgSet
  rw [writeBytes_append, writeBytes_append]
  simp [leWrite_length]

theorem readBytes_leWrite (buf : Buf) (off k v : Nat) :
    readBytes (writeBytes buf off (leWrite k v)) off k = leWrite k v := by
  have h := readBytes_writeBytes buf off (leWrite k v)
  rwa [leWrite_length] at h

/-- Writing an entry's header and payload at offset `o` lays out exactly that entry. -/
theorem entryIs_write (buf : Buf) (o : Nat) (t : Cm)
    (hlvl : t.level < 2 ^ 32) (hty : t.ty < 2 ^ 32)
    (hclen : cmsg_len t.value.length < 2 ^ 64) :
    entryIs (writeBytes (cmsgSet buf o t.level t.ty (cmsg_len t.value.length))
      (cmsg_data o) t.value) o t := by
  rw [cmsgSet_split, cmsg_data_eq]
  refine ⟨?_, ?_, ?_, ?_⟩
  · unfold readLen
    rw [readBytes_writeBytes_below _ _ _ _ _ (by omega),
      readBytes_writeBytes_below _ _ _ _ _ (by omega),
      readBytes_writeBytes_below _ _ _ _ _ (by omega),
      readBytes_leWrite]
    exact leRead_leWrite 8 _ (by norm_num at hclen ⊢; omega)
  · unfold readLevel
    rw [readBytes_writeBytes_below _ _ _ _ _ (by omega),
      readBytes_writeBytes_below _ _ _ _ _ (by simp [leWrite_length]),
      readBytes_leWrite]
    exact leRead_leWrite 4 _ (by norm_num at hlvl ⊢; omega)
  · unfold readType
    rw [readBytes_writeBytes_below _ _ _ _ _ (by simp [leWrite_length]),
      readBytes_leWrite]
    exact leRead_leWrite 4 _ (by norm_num at hty ⊢; omega)
  · exact readBytes_writeBytes _ (o + 16) t.value

/-- An entry layout only depends on the bytes strictly below `o + cmsg_len`. -/
theorem entryIs_frame {b1 b2 : Buf} {o : Nat} {t : Cm}
    (h : entryIs b1 o t) (hagree : ∀ i, i < o + cmsg_len t.value.length → b2 i = b1 i) :
    entryIs b2 o t := by
  obtain ⟨h1, h2, h3, h4⟩ := h
  rw [cmsg_len_eq] at hagree
  refine ⟨?_, ?_, ?_, ?_⟩
  · unfold readLen
    rw [show readBytes b2 o 8 = readBytes b1 o 8 from
      readBytes_congr _ _ (fun i hi => hagree (o + i) (by omega))]
    exact h1
  · unfold readLevel
    rw [show readBytes b2 (o + 8) 4 = readBytes b1 (o + 8) 4 from
      readBytes_congr _ _ (fun i hi => hagree (o + 8 + i) (by omega))]
    exact h2
  · unfold readType
    rw [show readBytes b2 (o + 12) 4 = readBytes b1 (o + 12) 4 from
      readBytes_congr _ _ (fun i hi => hagree (o + 12 + i) (by omega))]
    exact h3
  · rw [cmsg_data_eq] at h4 ⊢
    rw [show readBytes b2 (o + 16) t.value.length = readBytes b1 (o + 16) t.value.length from
      readBytes_congr _ _ (fun i hi => hagree (o + 16 + i) (by omega))]
    exact h4

/-- A sequence layout only depends on the bytes strictly below `o + sumSpace`. -/
theorem entriesAt_frame : ∀ (ts : List Cm) (o : Nat) {b1 b2 : Buf},
    entriesAt b1 o ts → (∀ i, i < o + sumSpace ts → b2 i = b1 i) → entriesAt b2 o ts
  | [], _, _, _, _, _ => trivial
  | t :: ts, o, b1, b2, h, hagree => by
    have hls := cmsg_len_le_space t.value.length
    refine ⟨entryIs_frame h.1 (fun i hi => hagree i (by
      have : cmsg_len t.value.length ≤ cmsg_space t.value.length + sumSpace ts := by
        have : (0:Nat) ≤ sumSpace ts := Nat.zero_le _
        omega
      simp only [sumSpace]
      omega)), ?_⟩
    exact entriesAt_frame ts _ h.2 (fun i hi => hagree i (by simp only [sumSpace]; omega))

end Cmsg

/-! ## Encoder correctness -/

namespace Cmsg

/-- Invariant-carrying correctness of a successful `pushAll` run (non-apple platform):
all pushes succeed, the accumulated length grows by `sumSpace`, the header's declared
length and pointer are untouched, bytes below the starting offset are untouched, the
cursor stays at the accumulated length while another entry header fits, and the pushed
entries are laid out back to back at the starting offset. -/
theorem pushAll_spec : ∀ (ts : List Cm) (e : EncM),
    (∀ t ∈ ts, t.level < 2 ^ 32 ∧ t.ty < 2 ^ 32 ∧ t.al ≤ 8 ∧
      cmsg_len t.value.length < 2 ^ 64) →
    e.len + sumSpace ts ≤ e.hdr.msg_controllen →
    (e.cmsg = some e.len ∨ (e.cmsg = none ∧ e.hdr.msg_controllen < e.len + 16)) →
    ∃ e2, pushAll false e ts = .ok e2 ∧
      e2.hdr.msg_controllen = e.hdr.msg_controllen ∧
      e2.hdr.msg_control_null = e.hdr.msg_control_null ∧
      e2.len = e.len + sumSpace ts ∧
      (e2.cmsg = some e2.len ∨ (e2.cmsg = none ∧ e2.hdr.msg_controllen < e2.len + 16)) ∧
      (∀ i, i < e.len → e2.hdr.buf i = e.hdr.buf i) ∧
      entriesAt e2.hdr.buf e.len ts
  | [], e, _, _, hcur =>
    ⟨e, rfl, rfl, rfl, by simp [sumSpace], hcur, fun _ _ => rfl, trivial⟩
  | t :: ts, e, hwf, hfit, hcur => by
    obtain ⟨hlvl, hty, hal, hclen⟩ := hwf t (List.mem_cons_self t ts)
    have hsp16 := cmsg_space_ge t.value.length
    have hsum : cmsg_space t.value.length + sumSpace (t :: ts) =
        cmsg_space t.value.length + (cmsg_space t.value.length + sumSpace ts) := rfl
    have hfit1 : e.len + cmsg_space t.value.length ≤ e.hdr.msg_controllen := by
      simp only [sumSpace] at hfit
      omega
    have hc : e.cmsg = some e.len := by
      rcases hcur with h | ⟨_, h⟩
      · exact h
      · omega
    have h1 : ¬ ¬ t.al ≤ 8 := not_not_intro hal
    have h2 : ¬ ¬ (e.len + cmsg_space t.value.length ≤ control_len e.hdr) :=
      not_not_intro (by unfold control_len; omega)
    have hpush : EncM.push false e t = .ok
        (⟨⟨e.hdr.msg_controllen, e.hdr.msg_control_null,
            writeBytes (cmsgSet e.hdr.buf e.len t.level t.ty (cmsg_len t.value.length))
              (cmsg_data e.len) t.value⟩,
          cmsg_nxt_hdr false
            ⟨e.hdr.msg_controllen, e.hdr.msg_control_null,
              writeBytes (cmsgSet e.hdr.buf e.len t.level t.ty (cmsg_len t.value.length))
                (cmsg_data e.len) t.value⟩ e.len,
          e.len + cmsg_space t.value.length⟩, false) := by
      simp only [EncM.push, if_neg h1, if_neg h2, hc]
    set buf2 := writeBytes (cmsgSet e.hdr.buf e.len t.level t.ty (cmsg_len t.value.length))
      (cmsg_data e.len) t.value with hbuf2def
    set hdr2 : MsgHdrM := ⟨e.hdr.msg_controllen, e.hdr.msg_control_null, buf2⟩ with hhdr2def
    set e1 : EncM := ⟨hdr2, cmsg_nxt_hdr false hdr2 e.len,
      e.len + cmsg_space t.value.length⟩ with he1def
    have hentry : entryIs buf2 e.len t := entryIs_write e.hdr.buf e.len t hlvl hty hclen
    have hnxt : e1.cmsg =
        (if e.len + cmsg_space t.value.length + 16 ≤ e.hdr.msg_controllen
          then some (e.len + cmsg_space t.value.length) else none) := by
      show cmsg_nxt_hdr false hdr2 e.len = _
      unfold cmsg_nxt_hdr cmsg_nxt_hdr_raw
      simp only [Bool.false_eq_true, if_false]
      have hrl : readLen hdr2.buf e.len = cmsg_len t.value.length := hentry.1
      rw [hrl, cmsgAlign_cmsg_len]
      rfl
    have hcur1 : e1.cmsg = some e1.len ∨
        (e1.cmsg = none ∧ e1.hdr.msg_controllen < e1.len + 16) := by
      rw [hnxt]
      by_cases hch : e.len + cmsg_space t.value.length + 16 ≤ e.hdr.msg_controllen
      · left
        rw [if_pos hch]
      · right
        refine ⟨by rw [if_neg hch], ?_⟩
        show e.hdr.msg_controllen < e.len + cmsg_space t.value.length + 16
        omega
    have hfitn : e1.len + sumSpace ts ≤ e1.hdr.msg_controllen := by
      show e.len + cmsg_space t.value.length + sumSpace ts ≤ e.hdr.msg_controllen
      simp only [sumSpace] at hfit
      omega
    obtain ⟨e2, hpa, hB, hnull, hlen2, hcur2, hframe2, hents2⟩ :=
      pushAll_spec ts e1 (fun u hu => hwf u (List.mem_cons_of_mem t hu)) hfitn hcur1
    refine ⟨e2, ?_, ?_, ?_, ?_, ?_, ?_, ?_⟩
    · simp only [pushAll, hpush]
      exact hpa
    · exact hB
    · exact hnull
    · rw [hlen2]
      show e.len + cmsg_space t.value.length + sumSpace ts = _
      simp only [sumSpace]
      omega
    · exact hcur2
    · intro i hi
      rw [hframe2 i (by show i < e.len + cmsg_space t.value.length; omega)]
      show buf2 i = e.hdr.buf i
      rw [hbuf2def]
      rw [writeBytes_lt _ _ _ _ (by rw [cmsg_data_eq]; omega), cmsgSet_split]
      rw [writeBytes_lt _ _ _ _ (by omega), writeBytes_lt _ _ _ _ (by omega),
        writeBytes_lt _ _ _ _ (by omega)]
    · show entryIs e2.hdr.buf e.len t ∧
        entriesAt e2.hdr.buf (e.len + cmsg_space t.value.length) ts
      have hls := cmsg_len_le_space t.value.length
      have hfr : entryIs e2.hdr.buf e.len t := by
        apply entryIs_frame hentry
        intro i hi
        apply hframe2
        show i < e.len + cmsg_space t.value.length
        omega
      have hts : entriesAt e2.hdr.buf (e.len + cmsg_space t.value.length) ts := hents2
      exact ⟨hfr, hts⟩
  termination_by ts => ts.length

end Cmsg

/-! ## Iterator correctness -/

namespace Cmsg

/-- Walking a committed header whose declared length is exactly the layout's footprint
yields exactly the layout's entry offsets, in order, within `length + 1` calls
(the last call returning `None`). -/
theorem iterItems_spec : ∀ (ts : List Cm) (h2 : MsgHdrM) (o cnt : Nat),
    entriesAt h2.buf o ts →
    h2.msg_controllen = o + sumSpace ts →
    iterItems false (ts.length + 1)
      ⟨h2, if ts.isEmpty then none else some o, cnt⟩ = offsetsFrom o ts
  | [], h2, o, cnt, _, _ => by
    simp [iterItems, IterM.next, offsetsFrom]
  | t :: ts, h2, o, cnt, hents, hlen => by
    have hsp16 := cmsg_space_ge t.value.length
    have hrl : readLen h2.buf o = cmsg_len t.value.length := hents.1.1
    have hnxt : cmsg_nxt_hdr false h2 o =
        (if ts.isEmpty then none else some (o + cmsg_space t.value.length)) := by
      unfold cmsg_nxt_hdr cmsg_nxt_hdr_raw
      simp only [Bool.false_eq_true, if_false]
      rw [hrl, cmsgAlign_cmsg_len]
      cases ts with
      | nil =>
        rw [if_neg]
        · rfl
        · show ¬ o + cmsg_space t.value.length + cmsghdrSize ≤ h2.msg_controllen
          rw [hlen]
          simp only [sumSpace]
          unfold cmsghdrSize
          omega
      | cons u us =>
        rw [if_pos]
        · rfl
        · show o + cmsg_space t.value.length + cmsghdrSize ≤ h2.msg_controllen
          rw [hlen]
          have h16 : 16 ≤ sumSpace (u :: us) := sumSpace_pos (by simp)
          simp only [sumSpace]
          unfold cmsghdrSize
          simp only [sumSpace] at h16
          omega
    show iterItems false (ts.length + 1 + 1) ⟨h2, some o, cnt⟩ = offsetsFrom o (t :: ts)
    rw [show ts.length + 1 + 1 = (ts.length + 1) + 1 from rfl]
    unfold iterItems IterM.next
    simp only
    rw [hnxt]
    show (o :: iterItems false (ts.length + 1)
      ⟨h2, if ts.isEmpty then none else some (o + cmsg_space t.value.length), cnt + 1⟩) = _
    rw [iterItems_spec ts h2 (o + cmsg_space t.value.length) (cnt + 1) hents.2
      (by rw [hlen]; simp only [sumSpace]; omega)]
    rfl
  termination_by ts => ts.length

/-- Indexed access into a laid-out sequence: the `i`-th offset carries the `i`-th entry. -/
theorem entriesAt_getD : ∀ (ts : List Cm) (o : Nat) (buf : Buf) (i : Nat),
    entriesAt buf o ts → i < ts.length →
    entryIs buf ((offsetsFrom o ts).getD i 0) (ts.getD i default)
  | [], _, _, i, _, hi => by simp at hi
  | t :: ts, o, buf, 0, hents, _ => by
    simpa [offsetsFrom] using hents.1
  | t :: ts, o, buf, i + 1, hents, hi => by
    have := entriesAt_getD ts (o + cmsg_space t.value.length) buf i hents.2
      (by simpa using hi)
    simpa [offsetsFrom] using this

end Cmsg

/-! ## Claim theorems: encoder commit, asserts, defensive branch, decode, logging -/

namespace Cmsg

/-- C2: on every way the Encoder's scope ends — the explicit `finish` or the `Drop`
impl — the header's control-buffer-length field receives exactly the accumulated byte
total: `finish` is definitionally the drop commit, the committed length equals the
accumulated `len` (never a stale or default value), and the commit touches nothing
else in the header (buffer bytes are unchanged). -/
theorem c2_commit_on_exit (e : EncM) :
    EncM.finish e = EncM.dropEnc e ∧
    (EncM.dropEnc e).msg_controllen = e.len ∧
    (EncM.dropEnc e).buf = e.hdr.buf := by
  exact ⟨rfl, rfl, rfl⟩

/-- C4: `Encoder::push` fails with an unrecoverable assertion — producing no updated
encoder state and writing nothing — whenever the value's alignment exceeds the entry
header's 8-byte alignment, or the accumulated length plus `required_space` exceeds the
header's declared control-buffer length. -/
theorem c4_push_asserts (apple : Bool) (e : EncM) (t : Cm)
    (hbad : ¬ t.al ≤ 8 ∨ ¬ e.len + cmsg_space t.value.length ≤ control_len e.hdr) :
    ∃ msg, EncM.push apple e t = .error msg := by
  rcases hbad with hb | hb
  · exact ⟨"assertion failed: align_of T <= align_of ControlMessage",
      by simp only [EncM.push, if_pos hb]⟩
  · by_cases ha : ¬ t.al ≤ 8
    · exact ⟨"assertion failed: align_of T <= align_of ControlMessage",
        by simp only [EncM.push, if_pos ha]⟩
    · exact ⟨"control message buffer too small",
        by simp only [EncM.push, if_neg ha, if_pos hb]⟩

/-- Witness for C4 at a concrete input: a 16-byte-aligned value is rejected. -/
theorem c4_push_asserts_witness :
    ∃ msg, EncM.push false (EncM.new ⟨64, false, fun _ => 0⟩) ⟨1, 2, 16, [0]⟩ =
      .error msg :=
  c4_push_asserts false (EncM.new ⟨64, false, fun _ => 0⟩) ⟨1, 2, 16, [0]⟩
    (Or.inl (by decide))

/-- C6: an Encoder over a header with a zero-length control buffer commits a zero
control-buffer length and nulls the control-buffer pointer, and a decoding iterator
constructed over an empty header yields no entries. -/
theorem c6_empty_buffer (h : MsgHdrM) (apple : Bool) (gc fuel : Nat)
    (h0 : h.msg_controllen = 0) :
    ((EncM.new h).dropEnc).msg_controllen = 0 ∧
    ((EncM.new h).dropEnc).msg_control_null = true ∧
    iterItems apple fuel (IterM.new gc h).1 = [] := by
  refine ⟨rfl, rfl, ?_⟩
  have hfirst : cmsg_first_hdr h = none := by
    unfold cmsg_first_hdr
    by_cases hn : h.msg_control_null
    · rw [if_pos hn]
    · rw [if_neg hn, if_neg (by unfold cmsghdrSize; omega)]
  cases fuel with
  | zero => rfl
  | succ n =>
    show iterItems apple (n + 1) ⟨h, cmsg_first_hdr h, 0⟩ = []
    rw [hfirst]
    rfl

/-- Witness for C6 at a concrete zero-length header. -/
theorem c6_empty_buffer_witness :
    ((EncM.new ⟨0, false, fun _ => 0⟩).dropEnc).msg_controllen = 0 ∧
    ((EncM.new ⟨0, false, fun _ => 0⟩).dropEnc).msg_control_null = true ∧
    iterItems false 5 (IterM.new 7 ⟨0, false, fun _ => 0⟩).1 = [] :=
  c6_empty_buffer ⟨0, false, fun _ => 0⟩ false 7 5 rfl

/-- C7: when both asserts pass but no entry slot is available (`cmsg` is `None`),
`push` is a silent drop with a diagnostic: it returns successfully, emits the
diagnostic, and leaves the encoder — accumulated length, cursor and buffer —
completely unchanged, so the committed length reflects only entries actually
written. -/
theorem c7_defensive_skip (apple : Bool) (e : EncM) (t : Cm)
    (hal : t.al ≤ 8)
    (hspace : e.len + cmsg_space t.value.length ≤ control_len e.hdr)
    (hslot : e.cmsg = none) :
    EncM.push apple e t = .ok (e, true) ∧ (EncM.dropEnc e).msg_controllen = e.len := by
  refine ⟨?_, rfl⟩
  simp only [EncM.push, if_neg (not_not_intro hal), if_neg (not_not_intro hspace), hslot]

/-- Witness for C7: a crafted encoder state with an empty cursor. -/
theorem c7_defensive_skip_witness :
    EncM.push false ⟨⟨64, false, fun _ => 0⟩, none, 8⟩ ⟨1, 2, 4, [5]⟩ =
      .ok (⟨⟨64, false, fun _ => 0⟩, none, 8⟩, true) ∧
    (EncM.dropEnc ⟨⟨64, false, fun _ => 0⟩, none, 8⟩).msg_controllen = 8 :=
  c7_defensive_skip false ⟨⟨64, false, fun _ => 0⟩, none, 8⟩ ⟨1, 2, 4, [5]⟩
    (by decide) (by decide) rfl

/-- C8: `decode` is a trusted-caller primitive: in production builds it returns the
bytes of the entry's payload region with no tag validation and no length check at all
(a length mismatch goes undetected); rewriting the level/type tag fields never changes
its result in any build; and only in non-production builds a declared-length mismatch
trips the consistency check while an exact match succeeds. -/
theorem c8_decode_trusted (buf : Buf) (off al sz lvl ty : Nat)
    (hal : al ≤ 8) :
    decodeM false buf off al sz = .ok (readBytes buf (cmsg_data off) sz) ∧
    (∀ debug : Bool,
      decodeM debug (writeBytes buf (off + 8) (leWrite 4 lvl ++ leWrite 4 ty)) off al sz =
        decodeM debug buf off al sz) ∧
    (¬ readLen buf off = cmsg_len sz →
      ∃ msg, decodeM true buf off al sz = .error msg) ∧
    (readLen buf off = cmsg_len sz →
      decodeM true buf off al sz = .ok (readBytes buf (cmsg_data off) sz)) := by
  have hnn : ¬ ¬ al ≤ 8 := not_not_intro hal
  refine ⟨?_, ?_, ?_, ?_⟩
  · unfold decodeM
    rw [if_neg hnn, if_neg (by simp)]
  · intro debug
    have hrl : readLen (writeBytes buf (off + 8) (leWrite 4 lvl ++ leWrite 4 ty)) off =
        readLen buf off := by
      unfold readLen
      rw [readBytes_writeBytes_below _ _ _ _ _ (by omega)]
    have hrb : readBytes (writeBytes buf (off + 8) (leWrite 4 lvl ++ leWrite 4 ty))
        (cmsg_data off) sz = readBytes buf (cmsg_data off) sz := by
      rw [cmsg_data_eq]
      apply readBytes_writeBytes_above
      simp [leWrite_length]
    simp only [decodeM, hrl, hrb]
  · intro hne
    refine ⟨"debug assertion failed: cmsg.len() == cmsg_len(size_of T)", ?_⟩
    unfold decodeM
    rw [if_neg hnn, if_pos (⟨rfl, hne⟩ : (true = true) ∧ ¬ readLen buf off = cmsg_len sz)]
  · intro heq
    simp only [decodeM, if_neg hnn, heq, not_true, and_false, if_false]

/-- Witness for C8 on a concrete buffer whose declared length field is wrong. -/
theorem c8_decode_trusted_witness :
    decodeM false (fun _ => 3) 0 4 2 = .ok (readBytes (fun _ => 3) (cmsg_data 0) 2) ∧
    (∀ debug : Bool,
      decodeM debug (writeBytes (fun _ => 3) (0 + 8) (leWrite 4 9 ++ leWrite 4 13)) 0 4 2 =
        decodeM debug (fun _ => 3) 0 4 2) ∧
    (¬ readLen (fun _ => 3) 0 = cmsg_len 2 →
      ∃ msg, decodeM true (fun _ => 3) 0 4 2 = .error msg) ∧
    (readLen (fun _ => 3) 0 = cmsg_len 2 →
      decodeM true (fun _ => 3) 0 4 2 = .ok (readBytes (fun _ => 3) (cmsg_data 0) 2)) :=
  c8_decode_trusted (fun _ => 3) 0 4 2 9 13 (by decide)

end Cmsg

/-! ## Claim theorems: iterator diagnostics and malformed-chain termination -/

namespace Cmsg

/-- C9 counterexample: stepping the iterator through a perfectly well-formed entry
chain is not silent — the very first `next` call both yields an entry (success path)
and emits diagnostic output, contradicting the claim that the steady-state success
path emits no logging. -/
theorem c9_counterexample :
    (IterM.next false (IterM.new 1 ⟨24, false, fun i => if i = 0 then 17 else 0⟩).1).1 =
      some 0 ∧
    (IterM.next false (IterM.new 1 ⟨24, false, fun i => if i = 0 then 17 else 0⟩).1).2.2 ≠ 0 := by
  constructor
  · rfl
  · decide

/-- C9 amended: every single call to `Iter::next`, including steady-state success
steps over well-formed chains, emits exactly two diagnostic lines, and `Iter::new`
emits one diagnostic line exactly on every thousandth construction. -/
theorem c9_per_call_logging (apple : Bool) (it : IterM) (gc : Nat) (h : MsgHdrM) :
    (IterM.next apple it).2.2 = 2 ∧
    (IterM.new gc h).2 = (if gc % 1000 = 0 then 1 else 0) := by
  constructor
  · unfold IterM.next
    cases it.cmsg <;> rfl
  · rfl

/-- C5: on the apple platform family, whenever the raw platform next-entry lookup
returns a non-null entry whose declared length is smaller than a minimal cmsg header,
the wrapped `cmsg_nxt_hdr` returns null instead, and an iterator whose cursor took
that null yields no further entries. -/
theorem c5_malformed_chain (h : MsgHdrM) (off n cnt : Nat)
    (hraw : cmsg_nxt_hdr_raw h off = some n)
    (hshort : readLen h.buf n < cmsghdrSize) :
    cmsg_nxt_hdr true h off = none ∧
    (IterM.next true ⟨h, cmsg_nxt_hdr true h off, cnt⟩).1 = none := by
  have hnone : cmsg_nxt_hdr true h off = none := by
    unfold cmsg_nxt_hdr
    rw [if_pos rfl, hraw]
    simp only [if_pos hshort]
  refine ⟨hnone, ?_⟩
  rw [hnone]
  rfl

/-- Witness for C5: a chain whose second entry announces only 5 bytes. -/
theorem c5_malformed_chain_witness :
    cmsg_nxt_hdr_raw ⟨32, false, fun i => if i = 0 then 16 else if i = 16 then 5 else 0⟩ 0 =
      some 16 ∧
    readLen (fun i => if i = 0 then 16 else if i = 16 then 5 else 0) 16 < cmsghdrSize ∧
    cmsg_nxt_hdr true ⟨32, false, fun i => if i = 0 then 16 else if i = 16 then 5 else 0⟩ 0 =
      none ∧
    (IterM.next true ⟨⟨32, false, fun i => if i = 0 then 16 else if i = 16 then 5 else 0⟩,
      cmsg_nxt_hdr true ⟨32, false, fun i => if i = 0 then 16 else if i = 16 then 5 else 0⟩ 0,
      3⟩).1 = none := by
  refine ⟨by decide, by decide, ?_, ?_⟩
  · exact (c5_malformed_chain _ 0 16 3 (by decide) (by decide)).1
  · exact (c5_malformed_chain _ 0 16 3 (by decide) (by decide)).2

end Cmsg

/-! ## Claim theorem: the tokio `poll_recv` error policy -/

namespace TokioRt

/-- C10: within one `poll_recv` invocation, a receive error is surfaced as
`Ready(Err(_))` only when its kind is `NotConnected` (when the readiness poll itself
never errors, any surfaced error has that kind); any other receive error — not just
`WouldBlock` — is silently discarded and the receive is retried in the same
invocation; and a readiness-poll error also propagates. -/
theorem c10_poll_recv_errors (trace rest : List (ReadyR × Except IOErrM Nat))
    (e e2 er : IOErrM) (rcv : Except IOErrM Nat)
    (hready : ∀ p ∈ trace, ∀ x : IOErrM, p.1 ≠ ReadyR.readyErr x)
    (hkind : e.kind ≠ ErrorKindM.notConnected)
    (htr : poll_recv trace = some (PollR.readyErr e2)) :
    e2.kind = ErrorKindM.notConnected ∧
    poll_recv ((ReadyR.readyOk, Except.error e) :: rest) = poll_recv rest ∧
    poll_recv ((ReadyR.readyErr er, rcv) :: rest) = some (PollR.readyErr er) := by
  refine ⟨?_, ?_, rfl⟩
  · induction trace with
    | nil => exact absurd htr (by simp [poll_recv])
    | cons p ps ih =>
      obtain ⟨r, rc⟩ := p
      cases r with
      | pending => simp [poll_recv] at htr
      | readyErr x =>
        exact absurd rfl (hready (ReadyR.readyErr x, rc) (List.mem_cons_self _ _) x)
      | readyOk =>
        cases rc with
        | ok n => simp [poll_recv] at htr
        | error e3 =>
          by_cases h3 : e3.kind = ErrorKindM.notConnected
          · simp only [poll_recv, if_pos h3, Option.some_inj] at htr
            injection htr with h4
            rw [← h4]
            exact h3
          · simp only [poll_recv, if_neg h3] at htr
            exact ih (fun q hq => hready q (List.mem_cons_of_mem _ hq)) htr
  · simp only [poll_recv, if_neg hkind]

/-- Witness for C10: a `WouldBlock` then a `ConnectionReset` receive error are both
swallowed and retried; the surfaced error is the `NotConnected` one. -/
theorem c10_poll_recv_errors_witness :
    IOErrM.mk ErrorKindM.notConnected = ⟨ErrorKindM.notConnected⟩ ∧
    poll_recv ((ReadyR.readyOk, Except.error ⟨ErrorKindM.connectionReset⟩) ::
        [(ReadyR.readyOk, Except.ok 3)]) =
      poll_recv [(ReadyR.readyOk, Except.ok 3)] ∧
    poll_recv [(ReadyR.readyErr ⟨ErrorKindM.otherKind⟩, Except.ok 1)] =
      some (PollR.readyErr ⟨ErrorKindM.otherKind⟩) := by
  have h := c10_poll_recv_errors
    [(ReadyR.readyOk, Except.error ⟨ErrorKindM.wouldBlock⟩),
     (ReadyR.readyOk, Except.error ⟨ErrorKindM.notConnected⟩)]
    [(ReadyR.readyOk, Except.ok 3)]
    ⟨ErrorKindM.connectionReset⟩ ⟨ErrorKindM.notConnected⟩ ⟨ErrorKindM.otherKind⟩
    (Except.ok 1)
    (by
      intro p hp x
      rcases List.mem_cons.mp hp with h | h
      · rw [h]
        simp
      · rcases List.mem_cons.mp h with h2 | h2
        · rw [h2]
          simp
        · simp at h2)
    (by decide) (by decide)
  exact ⟨h.1 ▸ rfl, h.2.1, h.2.2⟩

end TokioRt

/-! ## Claim theorems: round-trip and space accounting -/

namespace Cmsg

/-- Committing an encoder whose buffer holds the layout for `ts` and whose accumulated
length is its exact footprint, then iterating, yields exactly the layout's offsets. -/
theorem committed_walk (e2 : EncM) (ts : List Cm) (gc : Nat)
    (hents : entriesAt e2.hdr.buf 0 ts)
    (hlen : e2.len = sumSpace ts)
    (hnull : e2.hdr.msg_control_null = false) :
    iterItems false (ts.length + 1) (IterM.new gc e2.dropEnc).1 = offsetsFrom 0 ts := by
  cases ts with
  | nil =>
    have hfirst : cmsg_first_hdr e2.dropEnc = none := by
      unfold cmsg_first_hdr EncM.dropEnc set_control_len
      simp [hlen, sumSpace]
    show iterItems false 1 ⟨e2.dropEnc, cmsg_first_hdr e2.dropEnc, 0⟩ = []
    rw [hfirst]
    rfl
  | cons t us =>
    have h16 : 16 ≤ sumSpace (t :: us) := sumSpace_pos (by simp)
    have hfirst : cmsg_first_hdr e2.dropEnc = some 0 := by
      unfold cmsg_first_hdr EncM.dropEnc set_control_len
      simp only [hlen]
      rw [if_neg, if_pos]
      · show cmsghdrSize ≤ sumSpace (t :: us)
        unfold cmsghdrSize
        omega
      · show ¬ (if sumSpace (t :: us) = 0 then true else e2.hdr.msg_control_null) = true
        rw [if_neg (by omega), hnull]
        simp
    have hstate : (IterM.new gc e2.dropEnc).1 =
        ⟨e2.dropEnc, if (t :: us).isEmpty then none else some 0, 0⟩ := by
      show (⟨e2.dropEnc, cmsg_first_hdr e2.dropEnc, 0⟩ : IterM) = _
      rw [hfirst]
      rfl
    rw [hstate]
    apply iterItems_spec
    · exact hents
    · show (EncM.dropEnc e2).msg_controllen = 0 + sumSpace (t :: us)
      unfold EncM.dropEnc set_control_len
      simp only [hlen]
      omega

/-- C1: pushing any sequence of (level, type, value) control messages whose summed
`required_space` fits the declared control-buffer length, then walking the committed
header with the decoding iterator, yields exactly as many entries, in order, whose
level/type tags equal the pushed pairs and whose decode returns byte-identical values. -/
theorem c1_roundtrip (h : MsgHdrM) (ts : List Cm) (gc : Nat)
    (hwf : ∀ t ∈ ts, t.level < 2 ^ 32 ∧ t.ty < 2 ^ 32 ∧ t.al ≤ 8 ∧
      cmsg_len t.value.length < 2 ^ 64)
    (hfit : sumSpace ts ≤ h.msg_controllen)
    (hptr : h.msg_control_null = false) :
    ∃ e2, pushAll false (EncM.new h) ts = .ok e2 ∧
      (iterItems false (ts.length + 1) (IterM.new gc e2.dropEnc).1).length = ts.length ∧
      ∀ i, i < ts.length →
        readLevel e2.dropEnc.buf
            ((iterItems false (ts.length + 1) (IterM.new gc e2.dropEnc).1).getD i 0) =
          (ts.getD i default).level ∧
        readType e2.dropEnc.buf
            ((iterItems false (ts.length + 1) (IterM.new gc e2.dropEnc).1).getD i 0) =
          (ts.getD i default).ty ∧
        decodeM false e2.dropEnc.buf
            ((iterItems false (ts.length + 1) (IterM.new gc e2.dropEnc).1).getD i 0)
            (ts.getD i default).al (ts.getD i default).value.length =
          .ok (ts.getD i default).value := by
  have hcur0 : (EncM.new h).cmsg = some (EncM.new h).len ∨
      ((EncM.new h).cmsg = none ∧
        (EncM.new h).hdr.msg_controllen < (EncM.new h).len + 16) := by
    show cmsg_first_hdr h = some 0 ∨ (cmsg_first_hdr h = none ∧ h.msg_controllen < 0 + 16)
    unfold cmsg_first_hdr
    rw [hptr]
    by_cases h16 : cmsghdrSize ≤ h.msg_controllen
    · left
      rw [if_neg (by simp), if_pos h16]
    · right
      refine ⟨by rw [if_neg (by simp), if_neg h16], ?_⟩
      unfold cmsghdrSize at h16
      omega
  obtain ⟨e2, hpa, hB, hnull, hlen, _, _, hents⟩ :=
    pushAll_spec ts (EncM.new h) hwf
      (by show 0 + sumSpace ts ≤ h.msg_controllen; omega) hcur0
  have hlen0 : e2.len = sumSpace ts := by
    rw [hlen]
    show 0 + sumSpace ts = sumSpace ts
    omega
  have hnull0 : e2.hdr.msg_control_null = false := by
    rw [hnull]
    exact hptr
  have hwalk := committed_walk e2 ts gc hents hlen0 hnull0
  refine ⟨e2, hpa, ?_, ?_⟩
  · rw [hwalk, offsetsFrom_length]
  · intro i hi
    rw [hwalk]
    have hmem : ts.getD i default ∈ ts := by
      rw [List.getD_eq_getElem ts default hi]
      exact List.getElem_mem hi
    obtain ⟨_, _, hal, _⟩ := hwf _ hmem
    obtain ⟨hL, hLvl, hTy, hPv⟩ := entriesAt_getD ts 0 e2.hdr.buf i hents hi
    refine ⟨hLvl, hTy, ?_⟩
    show decodeM false e2.hdr.buf ((offsetsFrom 0 ts).getD i 0)
      (ts.getD i default).al (ts.getD i default).value.length = _
    unfold decodeM
    rw [if_neg (not_not_intro hal), if_neg (by simp), hPv]

/-- C3: after successfully pushing `N` entries, the committed control-buffer length is
exactly the sum of `required_space` over the entries and never exceeds the declared
buffer length `B`. -/
theorem c3_space_accounting (h : MsgHdrM) (ts : List Cm)
    (hwf : ∀ t ∈ ts, t.level < 2 ^ 32 ∧ t.ty < 2 ^ 32 ∧ t.al ≤ 8 ∧
      cmsg_len t.value.length < 2 ^ 64)
    (hfit : sumSpace ts ≤ h.msg_controllen)
    (hptr : h.msg_control_null = false) :
    ∃ e2, pushAll false (EncM.new h) ts = .ok e2 ∧
      (EncM.dropEnc e2).msg_controllen = sumSpace ts ∧
      (EncM.dropEnc e2).msg_controllen ≤ h.msg_controllen := by
  have hcur0 : (EncM.new h).cmsg = some (EncM.new h).len ∨
      ((EncM.new h).cmsg = none ∧
        (EncM.new h).hdr.msg_controllen < (EncM.new h).len + 16) := by
    show cmsg_first_hdr h = some 0 ∨ (cmsg_first_hdr h = none ∧ h.msg_controllen < 0 + 16)
    unfold cmsg_first_hdr
    rw [hptr]
    by_cases h16 : cmsghdrSize ≤ h.msg_controllen
    · left
      rw [if_neg (by simp), if_pos h16]
    · right
      refine ⟨by rw [if_neg (by simp), if_neg h16], ?_⟩
      unfold cmsghdrSize at h16
      omega
  obtain ⟨e2, hpa, hB, _, hlen, _, _, _⟩ :=
    pushAll_spec ts (EncM.new h) hwf
      (by show 0 + sumSpace ts ≤ h.msg_controllen; omega) hcur0
  have hlen0 : e2.len = sumSpace ts := by
    rw [hlen]
    show 0 + sumSpace ts = sumSpace ts
    omega
  refine ⟨e2, hpa, ?_, ?_⟩
  · show e2.len = sumSpace ts
    exact hlen0
  · show e2.len ≤ h.msg_controllen
    omega

end Cmsg

namespace Cmsg

/-- Witness for C1: two concrete control messages round-trip through a 64-byte buffer. -/
theorem c1_roundtrip_witness :
    ∃ e2, pushAll false (EncM.new ⟨64, false, fun _ => 0⟩)
        [⟨3, 11, 1, [1]⟩, ⟨41, 2, 4, [9, 8, 7, 6]⟩] = .ok e2 ∧
      (iterItems false (([⟨3, 11, 1, [1]⟩, ⟨41, 2, 4, [9, 8, 7, 6]⟩] : List Cm).length + 1)
          (IterM.new 1 e2.dropEnc).1).length =
        ([⟨3, 11, 1, [1]⟩, ⟨41, 2, 4, [9, 8, 7, 6]⟩] : List Cm).length ∧
      ∀ i, i < ([⟨3, 11, 1, [1]⟩, ⟨41, 2, 4, [9, 8, 7, 6]⟩] : List Cm).length →
        readLevel e2.dropEnc.buf
            ((iterItems false
              (([⟨3, 11, 1, [1]⟩, ⟨41, 2, 4, [9, 8, 7, 6]⟩] : List Cm).length + 1)
              (IterM.new 1 e2.dropEnc).1).getD i 0) =
          (([⟨3, 11, 1, [1]⟩, ⟨41, 2, 4, [9, 8, 7, 6]⟩] : List Cm).getD i default).level ∧
        readType e2.dropEnc.buf
            ((iterItems false
              (([⟨3, 11, 1, [1]⟩, ⟨41, 2, 4, [9, 8, 7, 6]⟩] : List Cm).length + 1)
              (IterM.new 1 e2.dropEnc).1).getD i 0) =
          (([⟨3, 11, 1, [1]⟩, ⟨41, 2, 4, [9, 8, 7, 6]⟩] : List Cm).getD i default).ty ∧
        decodeM false e2.dropEnc.buf
            ((iterItems false
              (([⟨3, 11, 1, [1]⟩, ⟨41, 2, 4, [9, 8, 7, 6]⟩] : List Cm).length + 1)
              (IterM.new 1 e2.dropEnc).1).getD i 0)
            (([⟨3, 11, 1, [1]⟩, ⟨41, 2, 4, [9, 8, 7, 6]⟩] : List Cm).getD i default).al
            (([⟨3, 11, 1, [1]⟩, ⟨41, 2, 4, [9, 8, 7, 6]⟩] : List Cm).getD
              i default).value.length =
          .ok (([⟨3, 11, 1, [1]⟩, ⟨41, 2, 4, [9, 8, 7, 6]⟩] : List Cm).getD i default).value :=
  c1_roundtrip ⟨64, false, fun _ => 0⟩ [⟨3, 11, 1, [1]⟩, ⟨41, 2, 4, [9, 8, 7, 6]⟩] 1
    (by decide) (by decide) rfl

/-- Witness for C3: three pushes into an 80-byte buffer commit 72 bytes. -/
theorem c3_space_accounting_witness :
    ∃ e2, pushAll false (EncM.new ⟨80, false, fun _ => 5⟩)
        [⟨1, 2, 1, [10]⟩, ⟨3, 4, 2, [20, 21]⟩, ⟨5, 6, 4, [1, 2, 3, 4]⟩] = .ok e2 ∧
      (EncM.dropEnc e2).msg_controllen =
        sumSpace [⟨1, 2, 1, [10]⟩, ⟨3, 4, 2, [20, 21]⟩, ⟨5, 6, 4, [1, 2, 3, 4]⟩] ∧
      (EncM.dropEnc e2).msg_controllen ≤ 80 :=
  c3_space_accounting ⟨80, false, fun _ => 5⟩
    [⟨1, 2, 1, [10]⟩, ⟨3, 4, 2, [20, 21]⟩, ⟨5, 6, 4, [1, 2, 3, 4]⟩]
    (by decide) (by decide) rfl

end Cmsg
